import Mathlib

/-!
# NUMA PageRank (`numa-PageRank.C`): vertex relabeling, node ranges, round loops, callbacks

A shallow embedding of the parts of `numa-PageRank.C` that its specification talks about:

* `PR_Hash_F` (the relabeling `hashFunc` / `hashBackFunc`),
* the range hand-out loop of `PageRank` and the admission predicate `PR_F::cond`,
* the result emission loop of `PageRank`,
* the round loops of `PageRankThread` (node leader) and `PageRankSubWorker`,
  as per-thread control flow that records the calls it makes,
* the callbacks `PR_F::update`, `PR_F::updateAtomic`, `PR_Vertex_F`, `PR_Vertex_Reset`
  in exact (rational) arithmetic.

C `int` values are modelled as `Int`; `/` and `%` are the truncating C operators
(`Int.tdiv`, `Int.tmod`).  For the inputs the statements range over, every intermediate
value lies between `0` and the vertex count (see `hashFunc_intermediates` and
`hashBackFunc_intermediates`), so no machine overflow can occur and no wrap-around is
modelled.  The loop counters `currIter` and `round` stay below `maxIter` when
`maxIter > 0`; when `maxIter ≤ 0` the `break` test is false whatever the counter holds.

A thread is modelled on its own: a barrier wait is a recorded call that returns.  The
engine primitives (`edgeMap`, `vertexMap`, the frontier operations) are declared outside
`numa-PageRank.C` and appear as recorded calls only.
-/

namespace NumaPageRank

/-! ## `PR_Hash_F` -/

/-- The fields of `struct PR_Hash_F`, in declaration order. -/
structure PR_Hash_F where
  shardNum : Int
  vertPerShard : Int
  n : Int
deriving DecidableEq, Repr

/-- Constructor `PR_Hash_F(int _n, int _shardNum)`:
`n(_n), shardNum(_shardNum), vertPerShard(_n / _shardNum)`.
(`_shardNum = 0` is a division by zero in C; the statements below take `_shardNum ≥ 1`.) -/
def PR_Hash_F.new (_n _shardNum : Int) : PR_Hash_F :=
  ⟨_shardNum, Int.tdiv _n _shardNum, _n⟩

/-- Member `PR_Hash_F::hashFunc(int index)`. -/
def PR_Hash_F.hashFunc (h : PR_Hash_F) (index : Int) : Int :=
  if index ≥ h.shardNum * h.vertPerShard then
    index
  else
    let idxOfShard := Int.tmod index h.shardNum
    let idxInShard := Int.tdiv index h.shardNum
    idxOfShard * h.vertPerShard + idxInShard

/-- Member `PR_Hash_F::hashBackFunc(int index)`. -/
def PR_Hash_F.hashBackFunc (h : PR_Hash_F) (index : Int) : Int :=
  if index ≥ h.shardNum * h.vertPerShard then
    index
  else
    let idxOfShard := Int.tdiv index h.vertPerShard
    let idxInShard := Int.tmod index h.vertPerShard
    idxOfShard + idxInShard * h.shardNum

/-! ## Value arrays and the PageRank callbacks (exact arithmetic) -/

/-- The two per-vertex value arrays a callback object points to, indexed like C arrays.
`p_curr_global` and `p_next_global` come from two separate `mapDataArray` allocations,
so the two arrays never alias.  Scores are rationals: arithmetic is exact. -/
structure Arrays where
  p_curr : Int → ℚ
  p_next : Int → ℚ

/-- The fields of `struct PR_F` other than the array pointers (which are in `Arrays`):
`V` gives `V[s].getOutDegree()`. -/
structure PR_F where
  V : Int → Int
  rangeLow : Int
  rangeHi : Int

/-- Member `PR_F::update(intT s, intT d)`:
`p_next[d] += p_curr[s]/V[s].getOutDegree(); return 1;`. -/
def PR_F.update (f : PR_F) (s d : Int) (m : Arrays) : Bool × Arrays :=
  (true, ⟨m.p_curr, Function.update m.p_next d (m.p_next d + m.p_curr s / (f.V s : ℚ))⟩)

/-- Modelled from the spec: `writeAdd` is declared outside `numa-PageRank.C`; the spec
describes the atomic variant of the accumulate as "an atomic floating-point add", so one
call adds `b` to the cell `a[d]` in one indivisible step. -/
def writeAdd (a : Int → ℚ) (d : Int) (b : ℚ) : Int → ℚ :=
  Function.update a d (a d + b)

/-- Member `PR_F::updateAtomic(intT s, intT d)`:
`writeAdd(&p_next[d], p_curr[s]/V[s].getOutDegree()); return 1;`. -/
def PR_F.updateAtomic (f : PR_F) (s d : Int) (m : Arrays) : Bool × Arrays :=
  (true, ⟨m.p_curr, writeAdd m.p_next d (m.p_curr s / (f.V s : ℚ))⟩)

/-- Member `PR_F::cond(intT d)`: `rangeLow <= d && d < rangeHi`. -/
def PR_F.cond (f : PR_F) (d : Int) : Bool :=
  decide (f.rangeLow ≤ d) && decide (d < f.rangeHi)

/-- The value fields of `struct PR_Vertex_F`. -/
structure PR_Vertex_F where
  damping : ℚ
  addedConstant : ℚ

/-- Constructor `PR_Vertex_F(_p_curr, _p_next, _damping, n)`:
`damping(_damping), addedConstant((1-_damping)*(1/(double)n))`. -/
def PR_Vertex_F.new (_damping : ℚ) (n : Int) : PR_Vertex_F :=
  ⟨_damping, (1 - _damping) * (1 / (n : ℚ))⟩

/-- The call operator of `PR_Vertex_F`:
`p_next[i] = damping*p_next[i] + addedConstant; return 1;`. -/
def PR_Vertex_F.call (f : PR_Vertex_F) (i : Int) (m : Arrays) : Bool × Arrays :=
  (true, ⟨m.p_curr, Function.update m.p_next i (f.damping * m.p_next i + f.addedConstant)⟩)

/-- The call operator of `PR_Vertex_Reset`: `p_curr[i] = 0.0; return 1;`. -/
def PR_Vertex_Reset.call (i : Int) (m : Arrays) : Bool × Arrays :=
  (true, ⟨Function.update m.p_curr i 0, m.p_next⟩)

/-- One application of a per-index callback to each index of `idxs`, left to right. -/
def applyEach (op : Int → Arrays → Bool × Arrays) (idxs : List Int) (m : Arrays) : Arrays :=
  idxs.foldl (fun acc i => (op i acc).2) m

/-- The vertex ids `0, 1, ..., n-1`. -/
def vertexIds (n : Int) : List Int :=
  (List.range n.toNat).map Int.ofNat

/-! ## `PageRank`: handing out ranges, emitting results -/

/-- The fields of `struct PR_worker_arg` (without the graph pointer). -/
structure PR_worker_arg where
  maxIter : Int
  tid : Int
  numOfNode : Int
  rangeLow : Int
  rangeHi : Int
deriving DecidableEq, Repr

/-- The thread creation loop of `PageRank`, from iteration `i` with running offset `prev`
over the remaining entries of `sizeArr`:
`arg->tid = i; arg->rangeLow = prev; arg->rangeHi = prev + sizeArr[i]; prev = prev + sizeArr[i];`.
The result lists the arguments the created leaders receive, in creation order. -/
def workerArgsFrom (maxIter numOfNode : Int) : List Int → Int → Int → List PR_worker_arg
  | [], _, _ => []
  | sz :: rest, i, prev =>
    ⟨maxIter, i, numOfNode, prev, prev + sz⟩ ::
      workerArgsFrom maxIter numOfNode rest (i + 1) (prev + sz)

/-- The whole creation loop of `PageRank`: `int prev = 0; for (int i = 0; i < numOfNode; i++)`,
where `sizeArr` has `numOfNode` entries (filled by `partitionByDegree`). -/
def PageRank_workerArgs (maxIter : Int) (sizeArr : List Int) : List PR_worker_arg :=
  workerArgsFrom maxIter sizeArr.length sizeArr 0 0

/-- The `PR_F` a leader's sub-workers build: `PR_F<vertex>(p_curr,p_next,GA.V,rangeLow,rangeHi)`
with the leader's `rangeLow`, `rangeHi`. -/
def PR_F.ofArg (V : Int → Int) (a : PR_worker_arg) : PR_F :=
  ⟨V, a.rangeLow, a.rangeHi⟩

/-- The emission loop of `PageRank` from counter value `i`:
`for (intT i = 0; i < GA.n; i++) cout << i << "\t" << ... << p_ans[hasher.hashFunc(i)] << "\n";`.
Each output line is the pair of the printed id and the printed score. -/
def emitFrom (hasher : PR_Hash_F) (n : Int) (p_ans : Int → ℚ) (i : Int) : List (Int × ℚ) :=
  if i < n then
    (i, p_ans (hasher.hashFunc i)) :: emitFrom hasher n p_ans (i + 1)
  else
    []
termination_by (n - i).toNat
decreasing_by omega

/-- The tail of `PageRank`: `if (needResult) { for ... }`, with
`PR_Hash_F hasher(GA.n, numOfNode)`. -/
def PageRank_emit (needResult : Bool) (n numOfNode : Int) (p_ans : Int → ℚ) :
    List (Int × ℚ) :=
  if needResult then emitFrom (PR_Hash_F.new n numOfNode) n p_ans 0 else []

/-! ## Control flow of the threads -/

/-- Macro `CORES_PER_NODE`, defined as `(6)`. -/
def CORES_PER_NODE : Nat := 6

/-- The calls a thread makes that other threads can observe: barrier waits, engine
primitives, frontier operations, pointer exchanges, thread creation. -/
inductive Call
  /-- Call `pthread_barrier_wait` on the node-local barrier (`local_barr` / `&localBarr`). -/
  | wait_local
  /-- Call `pthread_barrier_wait(&barr)`, the barrier of the node leaders. -/
  | wait_barr
  /-- Call `pthread_barrier_wait(&timerBarr)`. -/
  | wait_timerBarr
  /-- Call `Frontier->getFrontier(tid)->m = rangeHi - rangeLow`. -/
  | set_frontier_m
  /-- Call `Frontier->calculateNumOfNonZero(tid)`. -/
  | calculateNumOfNonZero
  /-- Call `parallel_for(...) output->setBit(i, false)`. -/
  | clear_output
  /-- Call `edgeMap(GA, Frontier, PR_F<vertex>(...), output, 0, DENSE_FORWARD, false, true, subworker)`. -/
  | edgeMap
  /-- Call `vertexMap(Frontier, PR_Vertex_F(p_curr, p_next, damping, n), tid, subTid, CORES_PER_NODE)`. -/
  | vertexMap_normalize
  /-- Call `vertexMap(Frontier, PR_Vertex_Reset(p_curr), tid, subTid, CORES_PER_NODE)`. -/
  | vertexMap_reset
  /-- Call `output = Frontier->getFrontier(tid)`. -/
  | get_frontier
  /-- Call `swap(p_curr, p_next)`. -/
  | swap
  /-- Call `p_ans = p_curr`. -/
  | set_p_ans
  /-- Call `switchFrontier(tid, Frontier, output)`. -/
  | switchFrontier
  /-- Call `Frontier = new vertices(numOfT)`. -/
  | new_vertices
  /-- Call `Frontier->registerFrontier(tid, current)`. -/
  | registerFrontier
  /-- Call `Frontier->calculateOffsets()`. -/
  | calculateOffsets
  /-- Call `pthread_barrier_init(&localBarr, NULL, CORES_PER_NODE+1)`. -/
  | init_localBarr
  /-- Call `partitionByDegree(GA, CORES_PER_NODE, sizeOfShards, sizeof(double), true)`. -/
  | partitionByDegree
  /-- Call `pthread_create(&subTids[i], NULL, PageRankSubWorker<vertex>, arg)` with `arg->subTid = i`. -/
  | create_subworker (subTid : Nat)
deriving DecidableEq, Repr

/-- Which global array a `double*` variable points to; `p_ans` starts as `NULL` (`none`). -/
inductive Ptr
  | p_curr_global
  | p_next_global
deriving DecidableEq, Repr

/-- Local state of a sub-worker's round loop: the counter `currIter`, its copies of the
array pointers, and the calls made so far, one list per executed loop body. -/
structure SubWorkerState where
  currIter : Int
  p_curr : Ptr
  p_next : Ptr
  rounds : List (List Call)
deriving DecidableEq, Repr

/-- The calls of one body of the `while(1)` loop of `PageRankSubWorker`, after the
`break` test and `currIter++`. -/
def subWorkerBody (subTid : Int) : List Call :=
  (if subTid = 0 then [Call.calculateNumOfNonZero] else []) ++
  (if subTid = 0 then [Call.clear_output] else []) ++
  [Call.wait_local,
   Call.edgeMap,
   Call.wait_local,
   Call.vertexMap_normalize,
   Call.wait_local,
   Call.vertexMap_reset, Call.get_frontier,
   Call.wait_local,
   Call.swap,
   Call.wait_local]

/-- The `while(1)` loop of `PageRankSubWorker`.  `fuel` bounds the number of times the
loop head is reached; `none` means the loop has not reached its `break` within `fuel`. -/
def subWorkerLoop (maxIter subTid : Int) : Nat → SubWorkerState → Option SubWorkerState
  | 0, _ => none
  | fuel + 1, st =>
    if maxIter > 0 ∧ st.currIter ≥ maxIter then
      some st
    else
      subWorkerLoop maxIter subTid fuel
        ⟨st.currIter + 1, st.p_next, st.p_curr, st.rounds ++ [subWorkerBody subTid]⟩

/-- The calls of `PageRankSubWorker` before its loop. -/
def subWorkerPrelude (subTid : Int) : List Call :=
  (if subTid = 0 then [Call.set_frontier_m] else []) ++ [Call.wait_local]

/-- Thread function `PageRankSubWorker`, started with `currIter = 0` and the leader's
`p_curr`, `p_next`: the final loop state when the thread returns, `none` when it has not
returned within `fuel` loop heads. -/
def PageRankSubWorker (maxIter subTid : Int) (fuel : Nat) : Option SubWorkerState :=
  subWorkerLoop maxIter subTid fuel ⟨0, Ptr.p_curr_global, Ptr.p_next_global, []⟩

/-- All calls of a returned sub-worker, in program order. -/
def subWorkerTrace (subTid : Int) (st : SubWorkerState) : List Call :=
  subWorkerPrelude subTid ++ st.rounds.flatten

/-- State of the leader's round loop: the counter `round`, the leader's array pointers,
the global `p_ans`, and the calls made so far, one list per executed loop body. -/
structure LeaderState where
  round : Int
  p_curr : Ptr
  p_next : Ptr
  p_ans : Option Ptr
  rounds : List (List Call)
deriving DecidableEq, Repr

/-- The calls of one body of the `while(1)` loop of `PageRankThread`, after the `break`
test and `round++`. -/
def leaderBody (tid : Int) : List Call :=
  [Call.wait_local,
   Call.wait_local,
   Call.wait_barr,
   Call.wait_local,
   Call.wait_local,
   Call.swap] ++
  (if tid = 0 then [Call.set_p_ans] else []) ++
  [Call.switchFrontier,
   Call.wait_local,
   Call.wait_barr]

/-- The `while(1)` loop of `PageRankThread`; `fuel` as in `subWorkerLoop`. -/
def leaderLoop (maxIter tid : Int) : Nat → LeaderState → Option LeaderState
  | 0, _ => none
  | fuel + 1, st =>
    if maxIter > 0 ∧ st.round ≥ maxIter then
      some st
    else
      leaderLoop maxIter tid fuel
        ⟨st.round + 1, st.p_next, st.p_curr,
         if tid = 0 then some st.p_next else st.p_ans,
         st.rounds ++ [leaderBody tid]⟩

/-- The calls of `PageRankThread` from `pthread_barrier_wait(&timerBarr)` up to its loop. -/
def leaderPrelude (tid : Int) : List Call :=
  [Call.wait_timerBarr] ++
  (if tid = 0 then [Call.new_vertices] else []) ++
  [Call.wait_barr, Call.registerFrontier, Call.wait_barr] ++
  (if tid = 0 then [Call.calculateOffsets] else []) ++
  [Call.init_localBarr, Call.partitionByDegree] ++
  (List.range CORES_PER_NODE).map Call.create_subworker ++
  [Call.wait_local, Call.wait_barr]

/-- Thread function `PageRankThread`, from `intT round = 0`, `p_curr = p_curr_global`,
`p_next = p_next_global` and the global `p_ans` still `NULL`: the final loop state when
the thread returns, `none` when it has not returned within `fuel` loop heads. -/
def PageRankThread (maxIter tid : Int) (fuel : Nat) : Option LeaderState :=
  leaderLoop maxIter tid fuel ⟨0, Ptr.p_curr_global, Ptr.p_next_global, none, []⟩

/-- All calls of a returned leader, in program order. -/
def leaderTrace (tid : Int) (st : LeaderState) : List Call :=
  leaderPrelude tid ++ st.rounds.flatten

/-- The phases of a round and the node-local waits: a trace without its bookkeeping calls
(`calculateNumOfNonZero`, `get_frontier`). -/
def phasesAndWaits (tr : List Call) : List Call :=
  tr.filter (fun c => c ≠ Call.calculateNumOfNonZero ∧ c ≠ Call.get_frontier)

/-- The loop `for(intT i = lo; i < hi; i++) a[i] = v;`, from counter value `i`. -/
def fillFrom (a : Int → ℚ) (v : ℚ) (hi : Int) (i : Int) : Int → ℚ :=
  if i < hi then fillFrom (Function.update a i v) v hi (i + 1) else a
termination_by (hi - i).toNat
decreasing_by omega

/-- The value initialisation of `PageRankThread`:
`double one_over_n = 1/(double)n;`
`for(intT i=rangeLow;i<rangeHi;i++) p_curr[i] = one_over_n;`
`for(intT i=rangeLow;i<rangeHi;i++) p_next[i] = 0;`. -/
def PageRankThread_init (n rangeLow rangeHi : Int) (m : Arrays) : Arrays :=
  let one_over_n : ℚ := 1 / (n : ℚ)
  ⟨fillFrom m.p_curr one_over_n rangeHi rangeLow, fillFrom m.p_next 0 rangeHi rangeLow⟩

/-! ## Arithmetic helpers -/

/-- Quotient and remainder of `q * v + r` by `v` when `0 ≤ r < v`. -/
theorem ediv_emod_of_digits (q r v : Int) (h0 : 0 ≤ r) (h1 : r < v) :
    (q * v + r) / v = q ∧ (q * v + r) % v = r := by
  have hv : v ≠ 0 := by omega
  constructor
  · rw [Int.add_comm, Int.add_mul_ediv_right _ _ hv, Int.ediv_eq_zero_of_lt h0 h1]
    simp
  · rw [Int.add_comm, Int.add_mul_emod_self, Int.emod_eq_of_lt h0 h1]

/-- On non-negative indices below `shardNum * vertPerShard`, `hashFunc` is
`(index % shardNum) * vertPerShard + index / shardNum` with Euclidean operators. -/
theorem hashFunc_eq_of_lt (n s i : Int) (hs : 1 ≤ s) (hi : 0 ≤ i)
    (hlt : i < s * Int.tdiv n s) :
    (PR_Hash_F.new n s).hashFunc i = (i % s) * (Int.tdiv n s) + i / s := by
  have hs0 : (0 : Int) ≤ s := by omega
  simp only [PR_Hash_F.hashFunc, PR_Hash_F.new, ge_iff_le]
  rw [if_neg (by omega), Int.tmod_eq_emod hi hs0, Int.tdiv_eq_ediv hi hs0]

/-- At or above `shardNum * vertPerShard`, `hashFunc` returns its argument. -/
theorem hashFunc_eq_of_ge (n s i : Int) (hge : s * Int.tdiv n s ≤ i) :
    (PR_Hash_F.new n s).hashFunc i = i := by
  simp only [PR_Hash_F.hashFunc, PR_Hash_F.new, ge_iff_le]
  rw [if_pos hge]

/-- At or above `shardNum * vertPerShard`, `hashBackFunc` returns its argument. -/
theorem hashBackFunc_eq_of_ge (n s i : Int) (hge : s * Int.tdiv n s ≤ i) :
    (PR_Hash_F.new n s).hashBackFunc i = i := by
  simp only [PR_Hash_F.hashBackFunc, PR_Hash_F.new, ge_iff_le]
  rw [if_pos hge]

/-- On non-negative indices below `shardNum * vertPerShard`, `hashBackFunc` is
`index / vertPerShard + (index % vertPerShard) * shardNum` with Euclidean operators. -/
theorem hashBackFunc_eq_of_lt (n s j : Int) (hv : 0 ≤ Int.tdiv n s) (hj : 0 ≤ j)
    (hlt : j < s * Int.tdiv n s) :
    (PR_Hash_F.new n s).hashBackFunc j
      = j / (Int.tdiv n s) + (j % (Int.tdiv n s)) * s := by
  simp only [PR_Hash_F.hashBackFunc, PR_Hash_F.new, ge_iff_le]
  rw [if_neg (by omega), Int.tmod_eq_emod hj hv, Int.tdiv_eq_ediv hj hv]

/-- A product bound: `a ≤ s - 1`, `b ≤ v - 1` with non-negative factors give
`a * v + b < s * v`. -/
theorem digits_lt (a b s v : Int) (ha : a < s) (hb0 : 0 ≤ b) (hb : b < v) :
    a * v + b < s * v := by
  have h1 : (a + 1) * v ≤ s * v := Int.mul_le_mul_of_nonneg_right (by omega) (by omega)
  have h2 : (a + 1) * v = a * v + v := by ring
  omega

/-- Shape of `hashFunc` below the cut: the image, its bound and its two digits. -/
theorem hashFunc_digits (n s i : Int) (hs : 1 ≤ s) (hi : 0 ≤ i)
    (hlt : i < s * Int.tdiv n s) :
    0 < Int.tdiv n s ∧
    0 ≤ i % s ∧ i % s < s ∧ 0 ≤ i / s ∧ i / s < Int.tdiv n s ∧
    (PR_Hash_F.new n s).hashFunc i = (i % s) * (Int.tdiv n s) + i / s ∧
    0 ≤ (PR_Hash_F.new n s).hashFunc i ∧
    (PR_Hash_F.new n s).hashFunc i < s * Int.tdiv n s := by
  have hs0 : (0 : Int) < s := by omega
  have hv : 0 < Int.tdiv n s := by
    by_contra hc
    have : s * Int.tdiv n s ≤ 0 := Int.mul_nonpos_of_nonneg_of_nonpos (by omega) (by omega)
    omega
  have hm0 : 0 ≤ i % s := Int.emod_nonneg _ (by omega)
  have hm1 : i % s < s := Int.emod_lt_of_pos _ hs0
  have hd0 : 0 ≤ i / s := Int.ediv_nonneg hi (by omega)
  have hd1 : i / s < Int.tdiv n s := Int.ediv_lt_of_lt_mul hs0 (by rw [Int.mul_comm]; exact hlt)
  have he := hashFunc_eq_of_lt n s i hs hi hlt
  refine ⟨hv, hm0, hm1, hd0, hd1, he, ?_, ?_⟩
  · rw [he]
    have : 0 ≤ (i % s) * Int.tdiv n s := Int.mul_nonneg hm0 (by omega)
    omega
  · rw [he]
    exact digits_lt _ _ _ _ hm1 hd0 hd1

/-- With `n ≥ 0` and `shardNum ≥ 1`, the cut `shardNum * vertPerShard` is at most `n`. -/
theorem cut_le (n s : Int) (hn : 0 ≤ n) (hs : 1 ≤ s) : s * Int.tdiv n s ≤ n := by
  rw [Int.tdiv_eq_ediv hn (by omega)]
  exact Int.mul_ediv_self_le (by omega)

/-- Every intermediate value of `hashFunc` on an id of `[0,n)` lies in `[0,n]`: the C
computation cannot overflow when `n` itself is an `int`. -/
theorem hashFunc_intermediates (n s i : Int) (hn : 0 ≤ n) (hs : 1 ≤ s) (hi : 0 ≤ i)
    (_hin : i < n) :
    0 ≤ Int.tdiv n s ∧ Int.tdiv n s ≤ n ∧
    0 ≤ s * Int.tdiv n s ∧ s * Int.tdiv n s ≤ n ∧
    (i < s * Int.tdiv n s →
      0 ≤ Int.tmod i s ∧ Int.tmod i s < s ∧ 0 ≤ Int.tdiv i s ∧ Int.tdiv i s ≤ i ∧
      0 ≤ Int.tmod i s * Int.tdiv n s ∧ Int.tmod i s * Int.tdiv n s ≤ n ∧
      0 ≤ Int.tmod i s * Int.tdiv n s + Int.tdiv i s ∧
      Int.tmod i s * Int.tdiv n s + Int.tdiv i s < n) := by
  have hs0 : (0 : Int) ≤ s := by omega
  have hv0 : 0 ≤ Int.tdiv n s := Int.tdiv_nonneg hn hs0
  have hcut := cut_le n s hn hs
  have hvn : Int.tdiv n s ≤ n := by
    have : 1 * Int.tdiv n s ≤ s * Int.tdiv n s := Int.mul_le_mul_of_nonneg_right hs hv0
    omega
  refine ⟨hv0, hvn, Int.mul_nonneg hs0 hv0, hcut, ?_⟩
  intro hlt
  obtain ⟨_, hm0, hm1, hd0, hd1, _, _, _⟩ := hashFunc_digits n s i hs hi hlt
  rw [Int.tmod_eq_emod hi hs0, Int.tdiv_eq_ediv hi hs0]
  have hprod0 : 0 ≤ (i % s) * Int.tdiv n s := Int.mul_nonneg hm0 hv0
  have hlt2 := digits_lt _ _ _ _ hm1 hd0 hd1
  have hdi : i / s ≤ i := Int.ediv_le_self _ hi
  refine ⟨hm0, hm1, hd0, hdi, hprod0, ?_, ?_, ?_⟩ <;> omega

/-- The inverse undoes the relabeling on every non-negative id. -/
theorem hashBackFunc_hashFunc_of_nonneg (n s i : Int) (hs : 1 ≤ s) (hi : 0 ≤ i) :
    (PR_Hash_F.new n s).hashBackFunc ((PR_Hash_F.new n s).hashFunc i) = i := by
  by_cases hlt : i < s * Int.tdiv n s
  · obtain ⟨hv, hm0, hm1, hd0, hd1, he, hh0, hh1⟩ := hashFunc_digits n s i hs hi hlt
    rw [hashBackFunc_eq_of_lt n s _ (by omega) hh0 hh1, he]
    obtain ⟨hq, hr⟩ := ediv_emod_of_digits (i % s) (i / s) (Int.tdiv n s) hd0 hd1
    rw [hq, hr]
    have := Int.emod_add_ediv i s
    have hc : i / s * s = s * (i / s) := Int.mul_comm _ _
    omega
  · have hge : s * Int.tdiv n s ≤ i := by omega
    rw [hashFunc_eq_of_ge n s i hge, hashBackFunc_eq_of_ge n s i hge]

/-- Shape of `hashBackFunc` below the cut: the image, its bound and its two digits. -/
theorem hashBackFunc_digits (n s j : Int) (hs : 1 ≤ s) (hj : 0 ≤ j)
    (hlt : j < s * Int.tdiv n s) :
    0 < Int.tdiv n s ∧
    0 ≤ j / Int.tdiv n s ∧ j / Int.tdiv n s < s ∧
    0 ≤ j % Int.tdiv n s ∧ j % Int.tdiv n s < Int.tdiv n s ∧
    (PR_Hash_F.new n s).hashBackFunc j = (j % Int.tdiv n s) * s + j / Int.tdiv n s ∧
    0 ≤ (PR_Hash_F.new n s).hashBackFunc j ∧
    (PR_Hash_F.new n s).hashBackFunc j < s * Int.tdiv n s := by
  have hv : 0 < Int.tdiv n s := by
    by_contra hc
    have : s * Int.tdiv n s ≤ 0 := Int.mul_nonpos_of_nonneg_of_nonpos (by omega) (by omega)
    omega
  have hq0 : 0 ≤ j / Int.tdiv n s := Int.ediv_nonneg hj (by omega)
  have hq1 : j / Int.tdiv n s < s := Int.ediv_lt_of_lt_mul hv hlt
  have hr0 : 0 ≤ j % Int.tdiv n s := Int.emod_nonneg _ (by omega)
  have hr1 : j % Int.tdiv n s < Int.tdiv n s := Int.emod_lt_of_pos _ hv
  have he : (PR_Hash_F.new n s).hashBackFunc j
      = (j % Int.tdiv n s) * s + j / Int.tdiv n s := by
    rw [hashBackFunc_eq_of_lt n s j (by omega) hj hlt, Int.add_comm]
  refine ⟨hv, hq0, hq1, hr0, hr1, he, ?_, ?_⟩
  · rw [he]
    have : 0 ≤ (j % Int.tdiv n s) * s := Int.mul_nonneg hr0 (by omega)
    omega
  · rw [he, Int.mul_comm s]
    exact digits_lt _ _ _ _ hr1 hq0 hq1

/-- The relabeling undoes the inverse on every non-negative id. -/
theorem hashFunc_hashBackFunc_of_nonneg (n s j : Int) (hs : 1 ≤ s) (hj : 0 ≤ j) :
    (PR_Hash_F.new n s).hashFunc ((PR_Hash_F.new n s).hashBackFunc j) = j := by
  by_cases hlt : j < s * Int.tdiv n s
  · obtain ⟨hv, hq0, hq1, hr0, hr1, he, hb0, hb1⟩ := hashBackFunc_digits n s j hs hj hlt
    rw [hashFunc_eq_of_lt n s _ hs hb0 hb1, he]
    obtain ⟨hq, hr⟩ := ediv_emod_of_digits (j % Int.tdiv n s) (j / Int.tdiv n s) s hq0 hq1
    rw [hq, hr]
    have := Int.emod_add_ediv j (Int.tdiv n s)
    have hc : j / Int.tdiv n s * Int.tdiv n s = Int.tdiv n s * (j / Int.tdiv n s) :=
      Int.mul_comm _ _
    omega
  · have hge : s * Int.tdiv n s ≤ j := by omega
    rw [hashBackFunc_eq_of_ge n s j hge, hashFunc_eq_of_ge n s j hge]

/-- The relabeling keeps `[0,n)` inside `[0,n)`. -/
theorem hashFunc_range (n s i : Int) (hn : 0 ≤ n) (hs : 1 ≤ s) (hi : 0 ≤ i) (hin : i < n) :
    0 ≤ (PR_Hash_F.new n s).hashFunc i ∧ (PR_Hash_F.new n s).hashFunc i < n := by
  have hcut := cut_le n s hn hs
  by_cases hlt : i < s * Int.tdiv n s
  · obtain ⟨_, _, _, _, _, _, hh0, hh1⟩ := hashFunc_digits n s i hs hi hlt
    omega
  · rw [hashFunc_eq_of_ge n s i (by omega)]
    omega

/-- Every intermediate value of `hashBackFunc` on an id of `[0,n)` lies in `[0,n]`. -/
theorem hashBackFunc_intermediates (n s j : Int) (hn : 0 ≤ n) (hs : 1 ≤ s) (hj : 0 ≤ j)
    (_hjn : j < n) (hlt : j < s * Int.tdiv n s) :
    0 ≤ Int.tdiv j (Int.tdiv n s) ∧ Int.tdiv j (Int.tdiv n s) < s ∧
    0 ≤ Int.tmod j (Int.tdiv n s) ∧ Int.tmod j (Int.tdiv n s) < Int.tdiv n s ∧
    0 ≤ Int.tmod j (Int.tdiv n s) * s ∧ Int.tmod j (Int.tdiv n s) * s ≤ n ∧
    0 ≤ Int.tdiv j (Int.tdiv n s) + Int.tmod j (Int.tdiv n s) * s ∧
    Int.tdiv j (Int.tdiv n s) + Int.tmod j (Int.tdiv n s) * s < n := by
  have hcut := cut_le n s hn hs
  obtain ⟨hv, hq0, hq1, hr0, hr1, _, _, _⟩ := hashBackFunc_digits n s j hs hj hlt
  rw [Int.tmod_eq_emod hj (by omega), Int.tdiv_eq_ediv hj (by omega)]
  have hprod0 : 0 ≤ (j % Int.tdiv n s) * s := Int.mul_nonneg hr0 (by omega)
  have hlt2 := digits_lt _ _ _ _ hr1 hq0 hq1
  have hc : Int.tdiv n s * s = s * Int.tdiv n s := Int.mul_comm _ _
  refine ⟨hq0, hq1, hr0, hr1, hprod0, ?_, ?_, ?_⟩ <;> omega

/-- The inverse keeps `[0,n)` inside `[0,n)`. -/
theorem hashBackFunc_range (n s j : Int) (hn : 0 ≤ n) (hs : 1 ≤ s) (hj : 0 ≤ j)
    (hjn : j < n) :
    0 ≤ (PR_Hash_F.new n s).hashBackFunc j ∧ (PR_Hash_F.new n s).hashBackFunc j < n := by
  have hcut := cut_le n s hn hs
  by_cases hlt : j < s * Int.tdiv n s
  · obtain ⟨_, _, _, _, _, _, hb0, hb1⟩ := hashBackFunc_digits n s j hs hj hlt
    omega
  · rw [hashBackFunc_eq_of_ge n s j (by omega)]
    omega

/-! ## The relabeling: round trip, bijection, contiguity -/

/-- C1: for every vertex count `n ≥ 0`, shard count `shardNum ≥ 1` and vertex id `i` with
`0 ≤ i < n`, `PR_Hash_F(n, shardNum).hashBackFunc(hashFunc(i)) == i`; ids of the tail
`[shardNum*(n/shardNum), n)` are included, as no case is excluded. -/
theorem hashBackFunc_hashFunc (n shardNum i : Int) (_hn : 0 ≤ n) (hs : 1 ≤ shardNum)
    (hi : 0 ≤ i) (_hin : i < n) :
    (PR_Hash_F.new n shardNum).hashBackFunc ((PR_Hash_F.new n shardNum).hashFunc i) = i :=
  hashBackFunc_hashFunc_of_nonneg n shardNum i hs hi

/-- The round trip of C1 at `n = 7`, `shardNum = 3`, on the tail id `i = 6`. -/
theorem hashBackFunc_hashFunc_witness :
    (PR_Hash_F.new 7 3).hashBackFunc ((PR_Hash_F.new 7 3).hashFunc 6) = 6 :=
  hashBackFunc_hashFunc 7 3 6 (by decide) (by decide) (by decide) (by decide)

/-- C2: for `n ≥ 0` and `shardNum ≥ 1`, `hashFunc` is a bijection on `[0,n)`: it maps
`[0,n)` into `[0,n)`, it is injective there, and every `j` of `[0,n)` is the image of
`hashBackFunc(j)`, which itself lies in `[0,n)`. -/
theorem hashFunc_bijection (n shardNum : Int) (hn : 0 ≤ n) (hs : 1 ≤ shardNum) :
    (∀ i, 0 ≤ i → i < n →
      0 ≤ (PR_Hash_F.new n shardNum).hashFunc i ∧ (PR_Hash_F.new n shardNum).hashFunc i < n) ∧
    (∀ i i', 0 ≤ i → i < n → 0 ≤ i' → i' < n →
      (PR_Hash_F.new n shardNum).hashFunc i = (PR_Hash_F.new n shardNum).hashFunc i' →
      i = i') ∧
    (∀ j, 0 ≤ j → j < n →
      (0 ≤ (PR_Hash_F.new n shardNum).hashBackFunc j ∧
        (PR_Hash_F.new n shardNum).hashBackFunc j < n) ∧
      (PR_Hash_F.new n shardNum).hashFunc ((PR_Hash_F.new n shardNum).hashBackFunc j) = j) := by
  refine ⟨fun i hi hin => hashFunc_range n shardNum i hn hs hi hin, ?_, ?_⟩
  · intro i i' hi _ hi' _ heq
    have h1 := hashBackFunc_hashFunc_of_nonneg n shardNum i hs hi
    have h2 := hashBackFunc_hashFunc_of_nonneg n shardNum i' hs hi'
    rw [heq] at h1
    omega
  · intro j hj hjn
    exact ⟨hashBackFunc_range n shardNum j hn hs hj hjn,
      hashFunc_hashBackFunc_of_nonneg n shardNum j hs hj⟩

/-- The bijection of C2 at `n = 7`, `shardNum = 3`. -/
theorem hashFunc_bijection_witness :
    (∀ i, 0 ≤ i → i < 7 →
      0 ≤ (PR_Hash_F.new 7 3).hashFunc i ∧ (PR_Hash_F.new 7 3).hashFunc i < 7) ∧
    (∀ i i', 0 ≤ i → i < 7 → 0 ≤ i' → i' < 7 →
      (PR_Hash_F.new 7 3).hashFunc i = (PR_Hash_F.new 7 3).hashFunc i' → i = i') ∧
    (∀ j, 0 ≤ j → j < 7 →
      (0 ≤ (PR_Hash_F.new 7 3).hashBackFunc j ∧ (PR_Hash_F.new 7 3).hashBackFunc j < 7) ∧
      (PR_Hash_F.new 7 3).hashFunc ((PR_Hash_F.new 7 3).hashBackFunc j) = j) :=
  hashFunc_bijection 7 3 (by decide) (by decide)

/-- C3: with `vertPerShard = n / shardNum` and `shardNum ≥ 1`, every id
`i < shardNum*vertPerShard` is sent into `[k*vertPerShard, (k+1)*vertPerShard)` for
`k = i % shardNum`; and for every `k` in `[0, shardNum)` the ids congruent to `k` modulo
`shardNum` reach every element of that interval and keep their order. -/
theorem hashFunc_contiguous (n shardNum : Int) (hs : 1 ≤ shardNum) :
    (∀ i, 0 ≤ i → i < shardNum * Int.tdiv n shardNum →
      Int.tmod i shardNum * Int.tdiv n shardNum ≤ (PR_Hash_F.new n shardNum).hashFunc i ∧
      (PR_Hash_F.new n shardNum).hashFunc i
        < (Int.tmod i shardNum + 1) * Int.tdiv n shardNum) ∧
    (∀ k, 0 ≤ k → k < shardNum →
      (∀ j, k * Int.tdiv n shardNum ≤ j → j < (k + 1) * Int.tdiv n shardNum →
        ∃ i, 0 ≤ i ∧ i < shardNum * Int.tdiv n shardNum ∧ Int.tmod i shardNum = k ∧
          (PR_Hash_F.new n shardNum).hashFunc i = j) ∧
      (∀ i i', 0 ≤ i → i < i' → i' < shardNum * Int.tdiv n shardNum →
        Int.tmod i shardNum = k → Int.tmod i' shardNum = k →
        (PR_Hash_F.new n shardNum).hashFunc i < (PR_Hash_F.new n shardNum).hashFunc i')) := by
  have hs0 : (0 : Int) ≤ shardNum := by omega
  refine ⟨?_, ?_⟩
  · intro i hi hlt
    obtain ⟨_, _, _, hd0, hd1, he, _, _⟩ := hashFunc_digits n shardNum i hs hi hlt
    rw [he, Int.tmod_eq_emod hi hs0]
    have h2 : (i % shardNum + 1) * Int.tdiv n shardNum
        = i % shardNum * Int.tdiv n shardNum + Int.tdiv n shardNum := by ring
    omega
  · intro k hk0 hk1
    refine ⟨?_, ?_⟩
    · intro j hj0 hj1
      have hexp : (k + 1) * Int.tdiv n shardNum
          = k * Int.tdiv n shardNum + Int.tdiv n shardNum := by ring
      have hr0 : 0 ≤ j - k * Int.tdiv n shardNum := by omega
      have hr1 : j - k * Int.tdiv n shardNum < Int.tdiv n shardNum := by omega
      have hi0 : 0 ≤ (j - k * Int.tdiv n shardNum) * shardNum + k := by
        have := Int.mul_nonneg hr0 hs0
        omega
      have hi1 : (j - k * Int.tdiv n shardNum) * shardNum + k
          < shardNum * Int.tdiv n shardNum := by
        rw [Int.mul_comm shardNum]
        exact digits_lt _ _ _ _ hr1 hk0 hk1
      obtain ⟨hq, hr⟩ := ediv_emod_of_digits (j - k * Int.tdiv n shardNum) k shardNum hk0 hk1
      refine ⟨(j - k * Int.tdiv n shardNum) * shardNum + k, hi0, hi1, ?_, ?_⟩
      · rw [Int.tmod_eq_emod hi0 hs0, hr]
      · rw [hashFunc_eq_of_lt n shardNum _ hs hi0 hi1, hq, hr]
        omega
    · intro i i' hi hii' hi' hk hk'
      have hi'0 : 0 ≤ i' := by omega
      have hilt : i < shardNum * Int.tdiv n shardNum := by omega
      rw [hashFunc_eq_of_lt n shardNum i hs hi hilt,
        hashFunc_eq_of_lt n shardNum i' hs hi'0 hi']
      rw [Int.tmod_eq_emod hi hs0] at hk
      rw [Int.tmod_eq_emod hi'0 hs0] at hk'
      rw [hk, hk']
      have e1 := Int.emod_add_ediv i shardNum
      have e2 := Int.emod_add_ediv i' shardNum
      rw [hk] at e1
      rw [hk'] at e2
      have hmul : shardNum * (i / shardNum) < shardNum * (i' / shardNum) := by omega
      have hdiv : i / shardNum < i' / shardNum :=
        Int.lt_of_mul_lt_mul_left hmul hs0
      omega

/-- The contiguity of C3 at `n = 7`, `shardNum = 3` (`vertPerShard = 2`). -/
theorem hashFunc_contiguous_witness :
    (∀ i, 0 ≤ i → i < 3 * Int.tdiv 7 3 →
      Int.tmod i 3 * Int.tdiv 7 3 ≤ (PR_Hash_F.new 7 3).hashFunc i ∧
      (PR_Hash_F.new 7 3).hashFunc i < (Int.tmod i 3 + 1) * Int.tdiv 7 3) ∧
    (∀ k, 0 ≤ k → k < 3 →
      (∀ j, k * Int.tdiv 7 3 ≤ j → j < (k + 1) * Int.tdiv 7 3 →
        ∃ i, 0 ≤ i ∧ i < 3 * Int.tdiv 7 3 ∧ Int.tmod i 3 = k ∧
          (PR_Hash_F.new 7 3).hashFunc i = j) ∧
      (∀ i i', 0 ≤ i → i < i' → i' < 3 * Int.tdiv 7 3 →
        Int.tmod i 3 = k → Int.tmod i' 3 = k →
        (PR_Hash_F.new 7 3).hashFunc i < (PR_Hash_F.new 7 3).hashFunc i')) :=
  hashFunc_contiguous 7 3 (by decide)

/-! ## Node ranges -/

/-- The creation loop makes one argument record per entry of `sizeArr`. -/
theorem workerArgsFrom_length (maxIter numOfNode : Int) (sizes : List Int) (i prev : Int) :
    (workerArgsFrom maxIter numOfNode sizes i prev).length = sizes.length := by
  induction sizes generalizing i prev with
  | nil => rfl
  | cons sz rest ih => simp [workerArgsFrom, ih]

/-- Closed form of the `k`-th record made by the creation loop. -/
theorem workerArgsFrom_getElem (maxIter numOfNode : Int) (sizes : List Int) (i prev : Int)
    (k : Nat) (a : PR_worker_arg)
    (ha : (workerArgsFrom maxIter numOfNode sizes i prev)[k]? = some a) :
    a.maxIter = maxIter ∧ a.numOfNode = numOfNode ∧ a.tid = i + k ∧
    a.rangeLow = prev + (sizes.take k).sum ∧
    a.rangeHi = prev + (sizes.take (k + 1)).sum := by
  induction sizes generalizing i prev k with
  | nil => simp [workerArgsFrom] at ha
  | cons sz rest ih =>
    cases k with
    | zero =>
      simp [workerArgsFrom] at ha
      subst ha
      simp
    | succ k =>
      simp only [workerArgsFrom, List.getElem?_cons_succ] at ha
      obtain ⟨h1, h2, h3, h4, h5⟩ := ih (i + 1) (prev + sz) k ha
      refine ⟨h1, h2, ?_, ?_, ?_⟩
      · rw [h3]; push_cast; ring
      · rw [h4]; simp [List.take_succ_cons]; ring
      · rw [h5]; simp [List.take_succ_cons]; ring

/-- Number of records of the creation loop whose range admits `d`: one when `d` lies in
`[prev, prev + sum of the sizes)`, none otherwise. -/
theorem workerArgsFrom_countP (maxIter numOfNode : Int) (V : Int → Int) (d : Int)
    (sizes : List Int) (hnonneg : ∀ sz ∈ sizes, 0 ≤ sz) (i prev : Int) :
    (workerArgsFrom maxIter numOfNode sizes i prev).countP
        (fun a => (PR_F.ofArg V a).cond d)
      = if prev ≤ d ∧ d < prev + sizes.sum then 1 else 0 := by
  induction sizes generalizing i prev with
  | nil =>
    simp only [workerArgsFrom, List.countP_nil, List.sum_nil]
    rw [if_neg (by omega)]
  | cons sz rest ih =>
    have hsz : 0 ≤ sz := hnonneg sz (List.mem_cons_self _ _)
    have hrest : ∀ x ∈ rest, 0 ≤ x := fun x hx => hnonneg x (List.mem_cons_of_mem _ hx)
    have hsum : 0 ≤ rest.sum := List.sum_nonneg hrest
    rw [workerArgsFrom, List.countP_cons, ih hrest (i + 1) (prev + sz)]
    simp only [PR_F.ofArg, PR_F.cond, Bool.and_eq_true, decide_eq_true_eq, List.sum_cons]
    by_cases h1 : prev ≤ d ∧ d < prev + sz
    · rw [if_pos h1, if_neg (by omega), if_pos (by omega)]
    · rw [if_neg h1]
      by_cases h2 : prev + sz ≤ d ∧ d < prev + sz + rest.sum
      · rw [if_pos h2, if_pos (by omega)]
      · rw [if_neg h2, if_neg (by omega)]

/-- A list in which exactly one entry satisfies `p` has exactly one position whose
entry satisfies `p`. -/
theorem exists_unique_index_of_countP {α : Type} (p : α → Bool) (l : List α)
    (h : l.countP p = 1) :
    ∃ k, k < l.length ∧ ∀ k' a, l[k']? = some a → (p a = true ↔ k' = k) := by
  induction l with
  | nil => simp at h
  | cons x t ih =>
    rw [List.countP_cons] at h
    by_cases hx : p x = true
    · rw [if_pos hx] at h
      have ht : t.countP p = 0 := by omega
      rw [List.countP_eq_zero] at ht
      refine ⟨0, by simp, ?_⟩
      intro k' a hk'
      cases k' with
      | zero =>
        simp at hk'
        subst hk'
        simp [hx]
      | succ k' =>
        simp only [List.getElem?_cons_succ] at hk'
        have hmem : a ∈ t := List.getElem?_mem hk'
        have := ht a hmem
        simp [this]
    · rw [if_neg hx] at h
      obtain ⟨k, hk, hu⟩ := ih (by omega)
      refine ⟨k + 1, by simp [hk], ?_⟩
      intro k' a hk'
      cases k' with
      | zero =>
        simp at hk'
        subst hk'
        simp [hx]
      | succ k' =>
        simp only [List.getElem?_cons_succ] at hk'
        rw [hu k' a hk']
        omega

/-- C4: for every `sizeArr` of non-negative sizes that sum to `n`, the ranges handed to
the node leaders start at `0`, follow each other without gap (`rangeLow` of node `k` is
the sum of the first `k` sizes, `rangeHi` the sum of the first `k+1`), and for every
vertex id `d` of `[0,n)` the predicate `PR_F::cond(d)` built from a leader's range is
true for exactly one node; for `d < 0` or `d ≥ n` it is false for every node. -/
theorem ranges_cover_exactly_once (maxIter n : Int) (V : Int → Int) (sizeArr : List Int)
    (hnonneg : ∀ sz ∈ sizeArr, 0 ≤ sz) (hsum : sizeArr.sum = n) :
    (PageRank_workerArgs maxIter sizeArr).length = sizeArr.length ∧
    (∀ (k : Nat) (a : PR_worker_arg), (PageRank_workerArgs maxIter sizeArr)[k]? = some a →
      a.tid = (k : Int) ∧ a.rangeLow = (sizeArr.take k).sum ∧
      a.rangeHi = (sizeArr.take (k + 1)).sum) ∧
    (∀ d, 0 ≤ d → d < n →
      ∃ k, k < (PageRank_workerArgs maxIter sizeArr).length ∧
        ∀ k' a, (PageRank_workerArgs maxIter sizeArr)[k']? = some a →
          ((PR_F.ofArg V a).cond d = true ↔ k' = k)) ∧
    (∀ d, d < 0 ∨ n ≤ d →
      ∀ a ∈ PageRank_workerArgs maxIter sizeArr, (PR_F.ofArg V a).cond d = false) := by
  refine ⟨workerArgsFrom_length _ _ _ _ _, ?_, ?_, ?_⟩
  · intro k a ha
    obtain ⟨_, _, h3, h4, h5⟩ := workerArgsFrom_getElem _ _ _ _ _ k a ha
    exact ⟨by omega, by omega, by omega⟩
  · intro d hd0 hdn
    apply exists_unique_index_of_countP
    unfold PageRank_workerArgs
    rw [workerArgsFrom_countP maxIter _ V d sizeArr hnonneg 0 0, if_pos (by omega)]
  · intro d hd a ha
    have hc := workerArgsFrom_countP maxIter sizeArr.length V d sizeArr hnonneg 0 0
    rw [if_neg (by omega), List.countP_eq_zero] at hc
    have := hc a ha
    simpa using this

/-- The coverage of C4 for three nodes with sizes `2, 0, 3` (`n = 5`). -/
theorem ranges_cover_exactly_once_witness :
    (PageRank_workerArgs 1 [2, 0, 3]).length = [(2 : Int), 0, 3].length ∧
    (∀ (k : Nat) (a : PR_worker_arg), (PageRank_workerArgs 1 [2, 0, 3])[k]? = some a →
      a.tid = (k : Int) ∧ a.rangeLow = ([(2 : Int), 0, 3].take k).sum ∧
      a.rangeHi = ([(2 : Int), 0, 3].take (k + 1)).sum) ∧
    (∀ d, 0 ≤ d → d < 5 →
      ∃ k, k < (PageRank_workerArgs 1 [2, 0, 3]).length ∧
        ∀ k' a, (PageRank_workerArgs 1 [2, 0, 3])[k']? = some a →
          ((PR_F.ofArg (fun _ => 1) a).cond d = true ↔ k' = k)) ∧
    (∀ d, d < 0 ∨ 5 ≤ d →
      ∀ a ∈ PageRank_workerArgs 1 [2, 0, 3], (PR_F.ofArg (fun _ => 1) a).cond d = false) :=
  ranges_cover_exactly_once 1 5 (fun _ => 1) [2, 0, 3] (by decide) (by decide)

/-! ## Emission of the results -/

/-- The emission loop from counter value `i` prints the ids `i, i+1, ..., n-1` in this
order, each with the score stored at `hashFunc` of the id. -/
theorem emitFrom_eq_map (hasher : PR_Hash_F) (n : Int) (p_ans : Int → ℚ) (i : Int) :
    emitFrom hasher n p_ans i
      = (List.range (n - i).toNat).map
          (fun (k : Nat) => (i + (k : Int), p_ans (hasher.hashFunc (i + (k : Int))))) := by
  generalize hm : (n - i).toNat = m
  induction m generalizing i with
  | zero =>
    rw [emitFrom, if_neg (by omega)]
    rfl
  | succ m ih =>
    rw [emitFrom, if_pos (by omega), ih (i + 1) (by omega), List.range_succ_eq_map]
    simp only [List.map_cons, List.map_map, Nat.cast_zero, Int.add_zero]
    congr 1
    apply List.map_congr_left
    intro k _
    simp only [Function.comp, Nat.cast_succ]
    rw [show i + 1 + (k : Int) = i + ((k : Int) + 1) by ring]

/-- The emission of `PageRank` as a map over the ids `0, ..., n-1`. -/
theorem PageRank_emit_eq_map (n numOfNode : Int) (p_ans : Int → ℚ) :
    PageRank_emit true n numOfNode p_ans
      = (vertexIds n).map
          (fun i => (i, p_ans ((PR_Hash_F.new n numOfNode).hashFunc i))) := by
  simp only [PageRank_emit, if_true, emitFrom_eq_map, vertexIds, List.map_map, Int.sub_zero]
  apply List.map_congr_left
  intro k _
  simp [Function.comp]

/-- C5 as stated fails: with `n = 6`, two nodes and the score array `p_ans[j] = j`, the
emitted lines are not the scores at `hashBackFunc(i)` (line `1` prints `p_ans[3]`, while
`hashBackFunc(1) = 2`). -/
theorem emit_not_through_hashBackFunc :
    PageRank_emit true 6 2 (fun j => (j : ℚ))
      ≠ (vertexIds 6).map (fun i => (i, (((PR_Hash_F.new 6 2).hashBackFunc i : Int) : ℚ))) := by
  rw [PageRank_emit_eq_map]
  intro h
  have h1 := congrArg (fun l => l[1]?) h
  simp [vertexIds, List.range_succ, PR_Hash_F.new, PR_Hash_F.hashFunc,
    PR_Hash_F.hashBackFunc, Int.tdiv, Int.tmod] at h1

/-- C5, amended: when results are emitted, the lines are those of the original vertex
ids `0, ..., n-1` in ascending order, and the score printed for id `i` is read at index
`hashFunc(i)` of `p_ans`, the index that `hashBackFunc` sends back to `i`; without
`needResult` nothing is emitted. -/
theorem emit_reads_hashFunc (n numOfNode : Int) (p_ans : Int → ℚ) (hs : 1 ≤ numOfNode) :
    PageRank_emit true n numOfNode p_ans
      = (vertexIds n).map (fun i => (i, p_ans ((PR_Hash_F.new n numOfNode).hashFunc i))) ∧
    (∀ i ∈ vertexIds n,
      (PR_Hash_F.new n numOfNode).hashBackFunc ((PR_Hash_F.new n numOfNode).hashFunc i) = i) ∧
    PageRank_emit false n numOfNode p_ans = [] := by
  refine ⟨PageRank_emit_eq_map n numOfNode p_ans, ?_, ?_⟩
  · intro i hi
    simp only [vertexIds, List.mem_map, List.mem_range] at hi
    obtain ⟨k, _, rfl⟩ := hi
    exact hashBackFunc_hashFunc_of_nonneg n numOfNode _ hs (Int.ofNat_nonneg k)
  · simp [PageRank_emit]

/-- The emission of C5 at `n = 6` with two nodes and `p_ans[j] = j`. -/
theorem emit_reads_hashFunc_witness :
    PageRank_emit true 6 2 (fun j => (j : ℚ))
      = (vertexIds 6).map (fun i => (i, (((PR_Hash_F.new 6 2).hashFunc i : Int) : ℚ))) ∧
    (∀ i ∈ vertexIds 6,
      (PR_Hash_F.new 6 2).hashBackFunc ((PR_Hash_F.new 6 2).hashFunc i) = i) ∧
    PageRank_emit false 6 2 (fun j => (j : ℚ)) = [] :=
  emit_reads_hashFunc 6 2 (fun j => (j : ℚ)) (by decide)

/-! ## Round loops -/

/-- With a positive cap, the sub-worker's loop started at counter `c ≤ maxIter` returns
exactly when the fuel exceeds the `maxIter - c` bodies still to run, and it has then run
exactly these bodies. -/
theorem subWorkerLoop_pos (maxIter subTid : Int) (hpos : 0 < maxIter) (k : Nat) :
    ∀ (fuel : Nat) (st : SubWorkerState), st.currIter + (k : Int) = maxIter →
      (k < fuel →
        ∃ st', subWorkerLoop maxIter subTid fuel st = some st' ∧
          st'.currIter = maxIter ∧
          st'.rounds = st.rounds ++ List.replicate k (subWorkerBody subTid)) ∧
      (fuel ≤ k → subWorkerLoop maxIter subTid fuel st = none) := by
  induction k with
  | zero =>
    intro fuel st hst
    refine ⟨?_, ?_⟩
    · intro hf
      obtain ⟨fuel', rfl⟩ : ∃ f', fuel = f' + 1 := ⟨fuel - 1, by omega⟩
      refine ⟨st, ?_, by omega, by simp⟩
      rw [subWorkerLoop, if_pos ⟨by omega, by omega⟩]
    · intro hf
      have : fuel = 0 := by omega
      subst this
      rfl
  | succ k ih =>
    intro fuel st hst
    have hlt : ¬ (maxIter > 0 ∧ st.currIter ≥ maxIter) := by
      push_cast at hst
      omega
    refine ⟨?_, ?_⟩
    · intro hf
      obtain ⟨fuel', rfl⟩ : ∃ f', fuel = f' + 1 := ⟨fuel - 1, by omega⟩
      rw [subWorkerLoop, if_neg hlt]
      obtain ⟨st', h1, h2, h3⟩ :=
        (ih fuel' ⟨st.currIter + 1, st.p_next, st.p_curr,
          st.rounds ++ [subWorkerBody subTid]⟩ (by push_cast at hst; simp only; omega)).1
          (by omega)
      refine ⟨st', h1, h2, ?_⟩
      rw [h3, List.replicate_succ, List.append_assoc]
      rfl
    · intro hf
      cases fuel with
      | zero => rfl
      | succ fuel' =>
        rw [subWorkerLoop, if_neg hlt]
        exact (ih fuel' _ (by push_cast at hst; simp only; omega)).2 (by omega)

/-- Without a positive cap the sub-worker's loop never reaches its `break`. -/
theorem subWorkerLoop_nonpos (maxIter subTid : Int) (hle : maxIter ≤ 0) :
    ∀ (fuel : Nat) (st : SubWorkerState), subWorkerLoop maxIter subTid fuel st = none := by
  intro fuel
  induction fuel with
  | zero => intro st; rfl
  | succ fuel ih =>
    intro st
    rw [subWorkerLoop, if_neg (by omega)]
    exact ih _

/-- With a positive cap, the leader's loop started at counter `c ≤ maxIter` returns exactly
when the fuel exceeds the `maxIter - c` bodies still to run, and it has then run exactly
these bodies. -/
theorem leaderLoop_pos (maxIter tid : Int) (hpos : 0 < maxIter) (k : Nat) :
    ∀ (fuel : Nat) (st : LeaderState), st.round + (k : Int) = maxIter →
      (k < fuel →
        ∃ st', leaderLoop maxIter tid fuel st = some st' ∧
          st'.round = maxIter ∧
          st'.rounds = st.rounds ++ List.replicate k (leaderBody tid)) ∧
      (fuel ≤ k → leaderLoop maxIter tid fuel st = none) := by
  induction k with
  | zero =>
    intro fuel st hst
    refine ⟨?_, ?_⟩
    · intro hf
      obtain ⟨fuel', rfl⟩ : ∃ f', fuel = f' + 1 := ⟨fuel - 1, by omega⟩
      refine ⟨st, ?_, by omega, by simp⟩
      rw [leaderLoop, if_pos ⟨by omega, by omega⟩]
    · intro hf
      have : fuel = 0 := by omega
      subst this
      rfl
  | succ k ih =>
    intro fuel st hst
    have hlt : ¬ (maxIter > 0 ∧ st.round ≥ maxIter) := by
      push_cast at hst
      omega
    refine ⟨?_, ?_⟩
    · intro hf
      obtain ⟨fuel', rfl⟩ : ∃ f', fuel = f' + 1 := ⟨fuel - 1, by omega⟩
      rw [leaderLoop, if_neg hlt]
      obtain ⟨st', h1, h2, h3⟩ :=
        (ih fuel' ⟨st.round + 1, st.p_next, st.p_curr,
          if tid = 0 then some st.p_next else st.p_ans,
          st.rounds ++ [leaderBody tid]⟩ (by push_cast at hst; simp only; omega)).1
          (by omega)
      refine ⟨st', h1, h2, ?_⟩
      rw [h3, List.replicate_succ, List.append_assoc]
      rfl
    · intro hf
      cases fuel with
      | zero => rfl
      | succ fuel' =>
        rw [leaderLoop, if_neg hlt]
        exact (ih fuel' _ (by push_cast at hst; simp only; omega)).2 (by omega)

/-- Without a positive cap the leader's loop never reaches its `break`. -/
theorem leaderLoop_nonpos (maxIter tid : Int) (hle : maxIter ≤ 0) :
    ∀ (fuel : Nat) (st : LeaderState), leaderLoop maxIter tid fuel st = none := by
  intro fuel
  induction fuel with
  | zero => intro st; rfl
  | succ fuel ih =>
    intro st
    rw [leaderLoop, if_neg (by omega)]
    exact ih _

/-- A sub-worker with a positive cap returns, after exactly `maxIter` bodies. -/
theorem PageRankSubWorker_returns (maxIter subTid : Int) (hpos : 0 < maxIter) (fuel : Nat)
    (hf : maxIter.toNat < fuel) :
    ∃ st, PageRankSubWorker maxIter subTid fuel = some st ∧ st.currIter = maxIter ∧
      st.rounds = List.replicate maxIter.toNat (subWorkerBody subTid) := by
  obtain ⟨st, h1, h2, h3⟩ :=
    (subWorkerLoop_pos maxIter subTid hpos maxIter.toNat fuel
      ⟨0, Ptr.p_curr_global, Ptr.p_next_global, []⟩
      (by simp only; rw [Int.toNat_of_nonneg (by omega)]; omega)).1 hf
  exact ⟨st, h1, h2, by simpa using h3⟩

/-- A leader with a positive cap returns, after exactly `maxIter` bodies. -/
theorem PageRankThread_returns (maxIter tid : Int) (hpos : 0 < maxIter) (fuel : Nat)
    (hf : maxIter.toNat < fuel) :
    ∃ st, PageRankThread maxIter tid fuel = some st ∧ st.round = maxIter ∧
      st.rounds = List.replicate maxIter.toNat (leaderBody tid) := by
  obtain ⟨st, h1, h2, h3⟩ :=
    (leaderLoop_pos maxIter tid hpos maxIter.toNat fuel
      ⟨0, Ptr.p_curr_global, Ptr.p_next_global, none, []⟩
      (by simp only; rw [Int.toNat_of_nonneg (by omega)]; omega)).1 hf
  exact ⟨st, h1, h2, by simpa using h3⟩

/-- C6: for every `maxIter > 0` the round loop of the node leader and the round loop of
every sub-worker terminate (given fuel for `maxIter + 1` loop heads they return, with less
they have not yet returned) after executing their body exactly `maxIter` times; for every
`maxIter ≤ 0` neither loop ever reaches its `break`. -/
theorem round_loops_run_maxIter_times (maxIter tid subTid : Int) :
    (0 < maxIter →
      (∀ fuel, maxIter.toNat < fuel →
        (∃ st, PageRankSubWorker maxIter subTid fuel = some st ∧
          st.rounds.length = maxIter.toNat ∧ st.currIter = maxIter) ∧
        (∃ st, PageRankThread maxIter tid fuel = some st ∧
          st.rounds.length = maxIter.toNat ∧ st.round = maxIter)) ∧
      (∀ fuel, fuel ≤ maxIter.toNat →
        PageRankSubWorker maxIter subTid fuel = none ∧
        PageRankThread maxIter tid fuel = none)) ∧
    (maxIter ≤ 0 →
      ∀ fuel, PageRankSubWorker maxIter subTid fuel = none ∧
        PageRankThread maxIter tid fuel = none) := by
  refine ⟨?_, ?_⟩
  · intro hpos
    refine ⟨?_, ?_⟩
    · intro fuel hf
      obtain ⟨sw, h1, h2, h3⟩ := PageRankSubWorker_returns maxIter subTid hpos fuel hf
      obtain ⟨ld, g1, g2, g3⟩ := PageRankThread_returns maxIter tid hpos fuel hf
      exact ⟨⟨sw, h1, by rw [h3, List.length_replicate], h2⟩,
        ⟨ld, g1, by rw [g3, List.length_replicate], g2⟩⟩
    · intro fuel hf
      have hk : (0 : Int) + (maxIter.toNat : Int) = maxIter := by
        rw [Int.toNat_of_nonneg (by omega)]; omega
      exact ⟨(subWorkerLoop_pos maxIter subTid hpos maxIter.toNat fuel
          ⟨0, Ptr.p_curr_global, Ptr.p_next_global, []⟩ hk).2 hf,
        (leaderLoop_pos maxIter tid hpos maxIter.toNat fuel
          ⟨0, Ptr.p_curr_global, Ptr.p_next_global, none, []⟩ hk).2 hf⟩
  · intro hle fuel
    exact ⟨subWorkerLoop_nonpos maxIter subTid hle fuel _,
      leaderLoop_nonpos maxIter tid hle fuel _⟩

/-- The loops of C6 with `maxIter = 3` (fuel `4` and `3`) and with `maxIter = -1`. -/
theorem round_loops_run_maxIter_times_witness :
    ((∃ st, PageRankSubWorker 3 1 4 = some st ∧
        st.rounds.length = (3 : Int).toNat ∧ st.currIter = 3) ∧
      (∃ st, PageRankThread 3 0 4 = some st ∧
        st.rounds.length = (3 : Int).toNat ∧ st.round = 3)) ∧
    (PageRankSubWorker 3 1 3 = none ∧ PageRankThread 3 0 3 = none) ∧
    (PageRankSubWorker (-1) 1 100 = none ∧ PageRankThread (-1) 0 100 = none) :=
  ⟨((round_loops_run_maxIter_times 3 0 1).1 (by decide)).1 4 (by decide),
   ((round_loops_run_maxIter_times 3 0 1).1 (by decide)).2 3 (by decide),
   (round_loops_run_maxIter_times (-1) 0 1).2 (by decide) 100⟩

/-- Occurrences of a call in `N` repetitions of the same round. -/
theorem count_flatten_replicate (c : Call) (l : List Call) (N : Nat) :
    (List.replicate N l).flatten.count c = N * l.count c := by
  induction N with
  | zero => simp
  | succ N ih =>
    rw [List.replicate_succ, List.flatten_cons, List.count_append, ih]
    ring

/-- One round of a sub-worker waits five times on the node-local barrier, and the
sub-worker waits once before its loop. -/
theorem subWorker_wait_counts (subTid : Int) :
    (subWorkerBody subTid).count Call.wait_local = 5 ∧
    (subWorkerPrelude subTid).count Call.wait_local = 1 := by
  by_cases h : subTid = 0
  · subst h
    exact ⟨by decide, by decide⟩
  · simp only [subWorkerBody, subWorkerPrelude, if_neg h]
    exact ⟨by decide, by decide⟩

/-- One round of a leader waits five times on the node-local barrier, and the leader waits
once on it before its loop. -/
theorem leader_wait_counts (tid : Int) :
    (leaderBody tid).count Call.wait_local = 5 ∧
    (leaderPrelude tid).count Call.wait_local = 1 := by
  by_cases h : tid = 0
  · subst h
    exact ⟨by decide, by decide⟩
  · simp only [leaderBody, leaderPrelude, if_neg h]
    exact ⟨by decide, by decide⟩

/-- The phases and waits of one sub-worker round: sub-worker `0` clears the output
frontier first, the others start with the wait that ends the clear phase. -/
theorem phasesAndWaits_subWorkerBody (subTid : Int) :
    phasesAndWaits (subWorkerBody subTid)
      = (if subTid = 0 then [Call.clear_output] else []) ++
        [Call.wait_local,
         Call.edgeMap, Call.wait_local,
         Call.vertexMap_normalize, Call.wait_local,
         Call.vertexMap_reset, Call.wait_local,
         Call.swap, Call.wait_local] := by
  by_cases h : subTid = 0
  · subst h
    decide
  · simp only [subWorkerBody, if_neg h]
    decide

/-- C10 as stated fails: the only round of the sub-worker with `subTid = 1` and
`maxIter = 1` goes from the wait that ends the clear phase to the edge-map without
clearing the output frontier; its whole run contains no `clear_output`. -/
theorem subworker_one_does_not_clear :
    ∃ st, PageRankSubWorker 1 1 2 = some st ∧
      st.rounds =
        [[Call.wait_local,
          Call.edgeMap, Call.wait_local,
          Call.vertexMap_normalize, Call.wait_local,
          Call.vertexMap_reset, Call.get_frontier, Call.wait_local,
          Call.swap, Call.wait_local]] ∧
      Call.clear_output ∉ subWorkerTrace 1 st :=
  ⟨⟨1, Ptr.p_next_global, Ptr.p_curr_global, [subWorkerBody 1]⟩, rfl, rfl, by decide⟩

/-- C10, amended: for every `maxIter > 0` a sub-worker returns after `maxIter` equal
rounds; a round goes through the phases clear output frontier (done by sub-worker `0`
only, empty for the others), edge-map, vertex-map normalize, vertex-map reset, swap, in
this order and with exactly one wait on the node-local barrier after each phase; over the
whole run the sub-worker and its leader each wait `1 + 5*maxIter` times on that
barrier. -/
theorem round_protocol (maxIter tid subTid : Int) (hpos : 0 < maxIter) (fuel : Nat)
    (hf : maxIter.toNat < fuel) :
    ∃ sw ld, PageRankSubWorker maxIter subTid fuel = some sw ∧
      PageRankThread maxIter tid fuel = some ld ∧
      sw.rounds = List.replicate maxIter.toNat (subWorkerBody subTid) ∧
      phasesAndWaits (subWorkerBody subTid)
        = (if subTid = 0 then [Call.clear_output] else []) ++
          [Call.wait_local,
           Call.edgeMap, Call.wait_local,
           Call.vertexMap_normalize, Call.wait_local,
           Call.vertexMap_reset, Call.wait_local,
           Call.swap, Call.wait_local] ∧
      (subWorkerTrace subTid sw).count Call.wait_local = 1 + 5 * maxIter.toNat ∧
      (leaderTrace tid ld).count Call.wait_local = 1 + 5 * maxIter.toNat := by
  obtain ⟨sw, h1, _, h3⟩ := PageRankSubWorker_returns maxIter subTid hpos fuel hf
  obtain ⟨ld, g1, _, g3⟩ := PageRankThread_returns maxIter tid hpos fuel hf
  refine ⟨sw, ld, h1, g1, h3, phasesAndWaits_subWorkerBody subTid, ?_, ?_⟩
  · obtain ⟨hb, hp⟩ := subWorker_wait_counts subTid
    rw [subWorkerTrace, List.count_append, h3, count_flatten_replicate, hb, hp]
    ring
  · obtain ⟨hb, hp⟩ := leader_wait_counts tid
    rw [leaderTrace, List.count_append, g3, count_flatten_replicate, hb, hp]
    ring

/-- The protocol of C10 for `maxIter = 2`, leader `0` and its sub-worker `3`. -/
theorem round_protocol_witness :
    ∃ sw ld, PageRankSubWorker 2 3 3 = some sw ∧
      PageRankThread 2 0 3 = some ld ∧
      sw.rounds = List.replicate (2 : Int).toNat (subWorkerBody 3) ∧
      phasesAndWaits (subWorkerBody 3)
        = (if (3 : Int) = 0 then [Call.clear_output] else []) ++
          [Call.wait_local,
           Call.edgeMap, Call.wait_local,
           Call.vertexMap_normalize, Call.wait_local,
           Call.vertexMap_reset, Call.wait_local,
           Call.swap, Call.wait_local] ∧
      (subWorkerTrace 3 sw).count Call.wait_local = 1 + 5 * (2 : Int).toNat ∧
      (leaderTrace 0 ld).count Call.wait_local = 1 + 5 * (2 : Int).toNat :=
  round_protocol 2 0 3 (by decide) 3 (by decide)

/-! ## `maxIter = 0` -/

/-- The initialisation loop writes `v` on `[i, hi)` and nothing else. -/
theorem fillFrom_apply (v : ℚ) (hi : Int) (k : Nat) :
    ∀ (a : Int → ℚ) (i : Int), (hi - i).toNat = k →
      ∀ j, fillFrom a v hi i j = if i ≤ j ∧ j < hi then v else a j := by
  induction k with
  | zero =>
    intro a i hk j
    rw [fillFrom, if_neg (by omega), if_neg (by omega)]
  | succ k ih =>
    intro a i hk j
    rw [fillFrom, if_pos (by omega), ih _ (i + 1) (by omega) j]
    by_cases hj : j = i
    · subst hj
      rw [if_neg (by omega), if_pos (by omega), Function.update_same]
    · rw [Function.update_noteq hj]
      by_cases h2 : i + 1 ≤ j ∧ j < hi
      · rw [if_pos h2, if_pos (by omega)]
      · rw [if_neg h2, if_neg (by omega)]

/-- C7 as stated fails: with `maxIter = 0` the leader of node `0` never reaches the
`break` of its round loop, whatever the number of loop heads allowed, so the computation
does not finish. -/
theorem maxIter_zero_does_not_finish :
    ¬ ∃ fuel st, PageRankThread 0 0 fuel = some st := by
  rintro ⟨fuel, st, h⟩
  rw [PageRankThread, leaderLoop_nonpos 0 0 (by decide) fuel _] at h
  exact Option.noConfusion h

/-- C7, amended: with `maxIter = 0` neither a leader nor a sub-worker ever leaves its
round loop, so nothing is reported; the uniform value `1/n` is what each leader's
initialisation stores in `p_curr` on its range before the rounds begin (with `0` in
`p_next`), leaving the entries outside the range as they were. -/
theorem maxIter_zero_runs_forever (tid subTid n rangeLow rangeHi : Int) (m : Arrays)
    (fuel : Nat) :
    PageRankThread 0 tid fuel = none ∧
    PageRankSubWorker 0 subTid fuel = none ∧
    (∀ i, rangeLow ≤ i → i < rangeHi →
      (PageRankThread_init n rangeLow rangeHi m).p_curr i = 1 / (n : ℚ) ∧
      (PageRankThread_init n rangeLow rangeHi m).p_next i = 0) ∧
    (∀ i, i < rangeLow ∨ rangeHi ≤ i →
      (PageRankThread_init n rangeLow rangeHi m).p_curr i = m.p_curr i ∧
      (PageRankThread_init n rangeLow rangeHi m).p_next i = m.p_next i) := by
  refine ⟨leaderLoop_nonpos 0 tid (by decide) fuel _,
    subWorkerLoop_nonpos 0 subTid (by decide) fuel _, ?_, ?_⟩
  · intro i h1 h2
    simp only [PageRankThread_init]
    rw [fillFrom_apply _ rangeHi _ _ rangeLow rfl i,
      fillFrom_apply _ rangeHi _ _ rangeLow rfl i, if_pos ⟨h1, h2⟩, if_pos ⟨h1, h2⟩]
    exact ⟨rfl, rfl⟩
  · intro i h
    simp only [PageRankThread_init]
    rw [fillFrom_apply _ rangeHi _ _ rangeLow rfl i,
      fillFrom_apply _ rangeHi _ _ rangeLow rfl i, if_neg (by omega), if_neg (by omega)]
    exact ⟨rfl, rfl⟩

/-- The case `maxIter = 0` of C7 for the leader of node `1` with range `[2, 4)` of a
graph with `n = 4`, at vertex `3` and at the foreign vertex `0`. -/
theorem maxIter_zero_runs_forever_witness :
    PageRankThread 0 1 1000 = none ∧
    PageRankSubWorker 0 5 1000 = none ∧
    ((PageRankThread_init 4 2 4 ⟨fun _ => 7, fun _ => 7⟩).p_curr 3 = 1 / ((4 : Int) : ℚ) ∧
      (PageRankThread_init 4 2 4 ⟨fun _ => 7, fun _ => 7⟩).p_next 3 = 0) ∧
    ((PageRankThread_init 4 2 4 ⟨fun _ => 7, fun _ => 7⟩).p_curr 0 = 7 ∧
      (PageRankThread_init 4 2 4 ⟨fun _ => 7, fun _ => 7⟩).p_next 0 = 7) :=
  ⟨(maxIter_zero_runs_forever 1 5 4 2 4 ⟨fun _ => 7, fun _ => 7⟩ 1000).1,
   (maxIter_zero_runs_forever 1 5 4 2 4 ⟨fun _ => 7, fun _ => 7⟩ 1000).2.1,
   (maxIter_zero_runs_forever 1 5 4 2 4 ⟨fun _ => 7, fun _ => 7⟩ 1000).2.2.1 3
     (by decide) (by decide),
   (maxIter_zero_runs_forever 1 5 4 2 4 ⟨fun _ => 7, fun _ => 7⟩ 1000).2.2.2 0
     (Or.inl (by decide))⟩

/-! ## Normalize and accumulate, in exact arithmetic -/

/-- One pass of `PR_Vertex_F` over distinct indices: each listed entry of `p_next` is
rescaled once, the other entries and the whole of `p_curr` are kept. -/
theorem applyEach_normalize (f : PR_Vertex_F) (idxs : List Int) (hnd : idxs.Nodup) :
    ∀ m : Arrays,
      (applyEach f.call idxs m).p_curr = m.p_curr ∧
      ∀ j, (applyEach f.call idxs m).p_next j
        = if j ∈ idxs then f.damping * m.p_next j + f.addedConstant else m.p_next j := by
  induction idxs with
  | nil => intro m; simp [applyEach]
  | cons i rest ih =>
    intro m
    rw [List.nodup_cons] at hnd
    obtain ⟨h1, h2⟩ := ih hnd.2 (f.call i m).2
    have hstep : applyEach f.call (i :: rest) m = applyEach f.call rest (f.call i m).2 := rfl
    rw [hstep]
    refine ⟨by rw [h1]; rfl, ?_⟩
    intro j
    rw [h2 j]
    by_cases hj : j = i
    · subst hj
      rw [if_neg hnd.1, if_pos (List.mem_cons_self _ _)]
      simp [PR_Vertex_F.call]
    · have hupd : (f.call i m).2.p_next j = m.p_next j := by
        simp [PR_Vertex_F.call, Function.update_noteq hj]
      rw [hupd]
      by_cases hmem : j ∈ rest
      · rw [if_pos hmem, if_pos (List.mem_cons_of_mem _ hmem)]
      · rw [if_neg hmem, if_neg (by simp [hj, hmem])]

/-- The vertex ids `0, ..., n-1` are pairwise distinct. -/
theorem vertexIds_nodup (n : Int) : (vertexIds n).Nodup := by
  unfold vertexIds
  exact (List.nodup_range _).map (fun a b h => by simpa using h)

/-- An id is among `0, ..., n-1` exactly when it is the cast of a natural number
below `n`. -/
theorem natCast_mem_vertexIds (n : Int) (k : Nat) : (k : Int) ∈ vertexIds n ↔ k < n.toNat := by
  simp [vertexIds]

/-- C8: in exact arithmetic, for `n > 0`, every damping and every index `i`, the normalize
operation `PR_Vertex_F(i)` sets `next[i]` to `damping*a[i] + (1-damping)/n` (`a` the value
of `next` before the call), changes no other entry of `next` and no entry of `curr`;
applied once to every `i` of `[0,n)` it gives
`sum(next) = damping*sum(a) + (1-damping)`. -/
theorem normalize_correct (n : Int) (hn : 0 < n) (damping : ℚ) (m : Arrays) (i : Int) :
    ((PR_Vertex_F.new damping n).call i m).2.p_next i
      = damping * m.p_next i + (1 - damping) / (n : ℚ) ∧
    (∀ j, j ≠ i → ((PR_Vertex_F.new damping n).call i m).2.p_next j = m.p_next j) ∧
    ((PR_Vertex_F.new damping n).call i m).2.p_curr = m.p_curr ∧
    (∑ k in Finset.range n.toNat,
        (applyEach (PR_Vertex_F.new damping n).call (vertexIds n) m).p_next (k : Int))
      = damping * (∑ k in Finset.range n.toNat, m.p_next (k : Int)) + (1 - damping) := by
  have hnq : (n : ℚ) ≠ 0 := by
    have : (0 : ℚ) < (n : ℚ) := by exact_mod_cast hn
    exact ne_of_gt this
  refine ⟨?_, ?_, rfl, ?_⟩
  · simp only [PR_Vertex_F.call, PR_Vertex_F.new, Function.update_same]
    ring
  · intro j hj
    simp only [PR_Vertex_F.call, Function.update_noteq hj]
  · obtain ⟨_, h2⟩ :=
      applyEach_normalize (PR_Vertex_F.new damping n) (vertexIds n) (vertexIds_nodup n) m
    have hterm : ∀ k ∈ Finset.range n.toNat,
        (applyEach (PR_Vertex_F.new damping n).call (vertexIds n) m).p_next (k : Int)
          = damping * m.p_next (k : Int) + (1 - damping) * (1 / (n : ℚ)) := by
      intro k hk
      rw [h2 (k : Int), if_pos ((natCast_mem_vertexIds n k).2 (Finset.mem_range.1 hk))]
      rfl
    rw [Finset.sum_congr rfl hterm, Finset.sum_add_distrib, ← Finset.mul_sum,
      Finset.sum_const, Finset.card_range, nsmul_eq_mul]
    have hcast : ((n.toNat : Nat) : ℚ) = (n : ℚ) := by
      have : ((n.toNat : Nat) : Int) = n := Int.toNat_of_nonneg (by omega)
      exact_mod_cast this
    rw [hcast]
    field_simp

/-- The normalize operation of C8 for `n = 4`, damping `17/20`, on `next = curr = 1/4`. -/
theorem normalize_correct_witness :
    ((PR_Vertex_F.new (17 / 20) 4).call 2 ⟨fun _ => 1 / 4, fun _ => 1 / 4⟩).2.p_next 2
      = 17 / 20 * (1 / 4) + (1 - 17 / 20) / ((4 : Int) : ℚ) ∧
    (∀ j, j ≠ 2 →
      ((PR_Vertex_F.new (17 / 20) 4).call 2 ⟨fun _ => 1 / 4, fun _ => 1 / 4⟩).2.p_next j
        = 1 / 4) ∧
    ((PR_Vertex_F.new (17 / 20) 4).call 2 ⟨fun _ => 1 / 4, fun _ => 1 / 4⟩).2.p_curr
      = (fun _ => 1 / 4) ∧
    (∑ k in Finset.range (4 : Int).toNat,
        (applyEach (PR_Vertex_F.new (17 / 20) 4).call (vertexIds 4)
          ⟨fun _ => 1 / 4, fun _ => 1 / 4⟩).p_next (k : Int))
      = 17 / 20 * (∑ _k in Finset.range (4 : Int).toNat, (1 / 4 : ℚ)) + (1 - 17 / 20) :=
  normalize_correct 4 (by decide) (17 / 20) ⟨fun _ => 1 / 4, fun _ => 1 / 4⟩ 2

/-- The atomic accumulate writes what the plain accumulate writes. -/
theorem updateAtomic_eq_update (f : PR_F) (s d : Int) (m : Arrays) :
    f.updateAtomic s d m = f.update s d m := rfl

/-- Accumulating along a list of edges out of `s`: every entry of `p_next` grows by the
contribution of `s` once per edge that ends there; `p_curr` is kept. -/
theorem applyEach_update (f : PR_F) (s : Int) (ts : List Int) :
    ∀ m : Arrays,
      (applyEach (f.update s) ts m).p_curr = m.p_curr ∧
      ∀ j, (applyEach (f.update s) ts m).p_next j
        = m.p_next j + (ts.count j : ℚ) * (m.p_curr s / (f.V s : ℚ)) := by
  induction ts with
  | nil => intro m; simp [applyEach]
  | cons t rest ih =>
    intro m
    obtain ⟨h1, h2⟩ := ih (f.update s t m).2
    have hstep : applyEach (f.update s) (t :: rest) m
        = applyEach (f.update s) rest (f.update s t m).2 := rfl
    rw [hstep]
    have hcurr : (f.update s t m).2.p_curr = m.p_curr := rfl
    refine ⟨by rw [h1, hcurr], ?_⟩
    intro j
    rw [h2 j, hcurr]
    by_cases hj : j = t
    · subst hj
      simp only [PR_F.update, Function.update_same, List.count_cons_self]
      push_cast
      ring
    · have hne : ¬ (t == j) = true := by simpa using fun h => hj h.symm
      simp only [PR_F.update, Function.update_noteq hj, List.count_cons, if_neg hne]
      simp

/-- C9: in exact arithmetic, for a source `s` of out-degree `d > 0` whose `d` edges go to
the `d` distinct destinations `dests`, starting from `next = 0` on them, one
`PR_F::update(s, t)` (or `updateAtomic(s, t)`) per edge, in any order `order` of the
edges, leaves `next[t] = curr[s]/d` on every destination, every other entry of `next`
unchanged and `curr` unchanged. -/
theorem star_accumulate (f : PR_F) (m : Arrays) (s d : Int) (_hd : 0 < d)
    (hdeg : f.V s = d) (dests order : List Int) (hnodup : dests.Nodup)
    (_hlen : (dests.length : Int) = d) (hperm : order.Perm dests)
    (hzero : ∀ t ∈ dests, m.p_next t = 0) :
    ((∀ t ∈ dests, (applyEach (f.update s) order m).p_next t = m.p_curr s / (d : ℚ)) ∧
      (∀ j, j ∉ dests → (applyEach (f.update s) order m).p_next j = m.p_next j) ∧
      (applyEach (f.update s) order m).p_curr = m.p_curr) ∧
    ((∀ t ∈ dests, (applyEach (f.updateAtomic s) order m).p_next t = m.p_curr s / (d : ℚ)) ∧
      (∀ j, j ∉ dests → (applyEach (f.updateAtomic s) order m).p_next j = m.p_next j) ∧
      (applyEach (f.updateAtomic s) order m).p_curr = m.p_curr) := by
  have hsame : applyEach (f.updateAtomic s) order m = applyEach (f.update s) order m := rfl
  obtain ⟨h1, h2⟩ := applyEach_update f s order m
  have hmain : (∀ t ∈ dests, (applyEach (f.update s) order m).p_next t = m.p_curr s / (d : ℚ)) ∧
      (∀ j, j ∉ dests → (applyEach (f.update s) order m).p_next j = m.p_next j) ∧
      (applyEach (f.update s) order m).p_curr = m.p_curr := by
    refine ⟨?_, ?_, h1⟩
    · intro t ht
      have hc : order.count t = 1 := by
        rw [hperm.count_eq]
        exact List.count_eq_one_of_mem hnodup ht
      rw [h2 t, hc, hzero t ht, hdeg]
      simp
    · intro j hj
      have hc : order.count j = 0 := by
        rw [hperm.count_eq]
        exact List.count_eq_zero_of_not_mem hj
      rw [h2 j, hc]
      simp
  exact ⟨hmain, by rw [hsame]; exact hmain⟩

/-- The star of C9 with source `0` of out-degree `2`, destinations `1` and `2` visited
in the order `2, 1`, and `curr = 1/4` everywhere. -/
theorem star_accumulate_witness :
    ((∀ t ∈ [(1 : Int), 2],
        (applyEach ((⟨fun _ => 2, 0, 3⟩ : PR_F).update 0) [2, 1]
          ⟨fun _ => 1 / 4, fun _ => 0⟩).p_next t = 1 / 4 / ((2 : Int) : ℚ)) ∧
      (∀ j, j ∉ [(1 : Int), 2] →
        (applyEach ((⟨fun _ => 2, 0, 3⟩ : PR_F).update 0) [2, 1]
          ⟨fun _ => 1 / 4, fun _ => 0⟩).p_next j = 0) ∧
      (applyEach ((⟨fun _ => 2, 0, 3⟩ : PR_F).update 0) [2, 1]
          ⟨fun _ => 1 / 4, fun _ => 0⟩).p_curr = (fun _ => 1 / 4)) ∧
    ((∀ t ∈ [(1 : Int), 2],
        (applyEach ((⟨fun _ => 2, 0, 3⟩ : PR_F).updateAtomic 0) [2, 1]
          ⟨fun _ => 1 / 4, fun _ => 0⟩).p_next t = 1 / 4 / ((2 : Int) : ℚ)) ∧
      (∀ j, j ∉ [(1 : Int), 2] →
        (applyEach ((⟨fun _ => 2, 0, 3⟩ : PR_F).updateAtomic 0) [2, 1]
          ⟨fun _ => 1 / 4, fun _ => 0⟩).p_next j = 0) ∧
      (applyEach ((⟨fun _ => 2, 0, 3⟩ : PR_F).updateAtomic 0) [2, 1]
          ⟨fun _ => 1 / 4, fun _ => 0⟩).p_curr = (fun _ => 1 / 4)) :=
  star_accumulate ⟨fun _ => 2, 0, 3⟩ ⟨fun _ => 1 / 4, fun _ => 0⟩ 0 2 (by decide) rfl
    [1, 2] [2, 1] (by decide) (by decide) (by decide) (fun _ _ => rfl)

end NumaPageRank
